import Mathlib

/-!
Shallow embedding of `cidrtrie` (a prefix trie with three lookup modes, and a
CIDR classifier built on it), together with theorems checking the repository's
specification against the code.

The embedding follows `cidrtrie/__init__.py`.  Python's in-place mutation is
rendered as explicit state passing: an operation that mutates the trie returns
the new root, and an operation that can raise returns an `Except`/`Option`
carrying the Python exception it would raise.  Python's `None` value list is
rendered as `[]` (the two are observationally interchangeable through the
public API, which only ever reads `data` of nodes it has made terminal).
-/

set_option autoImplicit false

namespace Cidrtrie

/-- Exceptions the Python code can raise on the paths modelled here:
`KeyError` (raised by `find_node`), `ValueError` (raised by `list.remove`),
`AttributeError` (attribute access on a non-node value), and `OSError`
(raised by `socket.inet_aton` on a malformed address). -/
inductive PyErr : Type where
  | keyError : PyErr
  | valueError : PyErr
  | attributeError : PyErr
  | oserror : PyErr
  deriving DecidableEq, Repr

/-- `_TrieNode`: `value` is the symbol that led here from the parent (`none`
at the root), `terminal` marks an inserted key, `data` is the attached value
list (Python `None` rendered as `[]`), `children` is the child dict rendered
as an association list in insertion order. -/
inductive TrieNode (σ α : Type) : Type where
  | mk : Option σ → Bool → List α → List (σ × TrieNode σ α) → TrieNode σ α

namespace TrieNode

variable {σ α : Type}

def value : TrieNode σ α → Option σ
  | .mk v _ _ _ => v

def terminal : TrieNode σ α → Bool
  | .mk _ b _ _ => b

def data : TrieNode σ α → List α
  | .mk _ _ d _ => d

def children : TrieNode σ α → List (σ × TrieNode σ α)
  | .mk _ _ _ cs => cs

end TrieNode

variable {σ α : Type} [DecidableEq σ] [DecidableEq α]

/-- Lookup in the child dict (`current[character]` and
`character in current`): first entry with the given key. -/
def lookupChild (cs : List (σ × TrieNode σ α)) (c : σ) : Option (TrieNode σ α) :=
  match cs with
  | [] => none
  | (k, n) :: rest => if k = c then some n else lookupChild rest c

/-- Replace the first entry with the given key by applying `f` to its node,
modelling in-place mutation of the child the walk descended into. -/
def updateChild (cs : List (σ × TrieNode σ α)) (c : σ) (f : TrieNode σ α → TrieNode σ α) :
    List (σ × TrieNode σ α) :=
  match cs with
  | [] => []
  | (k, n) :: rest => if k = c then (k, f n) :: rest else (k, n) :: updateChild rest c f

/-- `add_child`: `_TrieNode(value)` with `terminal=False`, `data=None`,
`children={}`. -/
def newNode (c : σ) : TrieNode σ α := .mk (some c) false [] []

/-- `Trie.__init__`: the root node `_TrieNode(None)`. -/
def root0 : TrieNode σ α := .mk none false [] []

/-- `Trie.MODE_SHORTEST_PREFIX` (renamed: several Lean tokens begin with those characters). -/
def SHORTEST_PREFIX_MODE : Nat := 0

/-- `Trie.MODE_LONGEST_PREFIX` (renamed as above). -/
def LONGEST_PREFIX_MODE : Nat := 1

/-- `Trie.MODE_EXACT_ONLY` (renamed as above). -/
def EXACT_ONLY_MODE : Nat := 2

/-- `Trie.insert`: walk the key, descending into an existing child or creating
a missing one (`add_child` appends to the dict); at the final node, create a
fresh value list if the node was not yet terminal, mark it terminal, and
append the data. -/
def Trie.insert : TrieNode σ α → List σ → α → TrieNode σ α
  | t, [], v => .mk t.value true ((if t.terminal then t.data else []) ++ [v]) t.children
  | t, c :: rest, v =>
    match lookupChild t.children c with
    | some _ => .mk t.value t.terminal t.data
        (updateChild t.children c (fun n => Trie.insert n rest v))
    | none => .mk t.value t.terminal t.data
        (t.children ++ [(c, Trie.insert (newNode c) rest v)])

/-- Outcome of the `for character in string` loop of `find_node`: `hit` is the
in-loop early return of SHORTEST_PREFIX mode (recorded path and current node);
`done` carries the recorded path, the final `current`, and whether the loop
ended by `break` (missing child) rather than by exhausting the key. -/
inductive WalkRes (σ α : Type) : Type where
  | hit : List (TrieNode σ α) → TrieNode σ α → WalkRes σ α
  | done : List (TrieNode σ α) → TrieNode σ α → Bool → WalkRes σ α

/-- The walk loop of `find_node`, with the path accumulated in `acc`. -/
def walkLoop (mode : Nat) : TrieNode σ α → List (TrieNode σ α) → List σ → WalkRes σ α
  | t, acc, [] => .done acc t false
  | t, acc, c :: rest =>
    match lookupChild t.children c with
    | some n =>
      if n.terminal && (mode == SHORTEST_PREFIX_MODE) then .hit (acc ++ [n]) n
      else walkLoop mode n (acc ++ [n]) rest
    | none => .done acc t true

/-- Models `''.join(p.value for p in path)`: on every trie the API builds,
each path node carries exactly one symbol in `value`, so the join is the
concatenation of those symbols. -/
def joinValues (path : List (TrieNode σ α)) : List σ :=
  path.filterMap TrieNode.value

/-- The backward scan `for i in reversed(range(len(path)))` of `find_node`:
the deepest terminal node of `path` together with the joined values of the
path up to and including it (`acc` holds the joined values of the nodes
before `path`). -/
def backtrack (acc : List σ) : List (TrieNode σ α) → Option (List σ × TrieNode σ α)
  | [] => none
  | n :: rest =>
    match backtrack (acc ++ n.value.toList) rest with
    | some r => some r
    | none => if n.terminal then some (acc ++ n.value.toList, n) else none

/-- `Trie.find_node`.  The result pairs the joined path string with either a
node (`Sum.inl`) or — in the SHORTEST_PREFIX root special case, which returns
`current.data` instead of a node — a value list (`Sum.inr`). -/
def Trie.find_node (t : TrieNode σ α) (s : List σ) (mode : Nat) :
    Except PyErr (List σ × (TrieNode σ α ⊕ List α)) :=
  if t.terminal && (mode == SHORTEST_PREFIX_MODE) then .ok ([], .inr t.data)
  else
    match walkLoop mode t [] s with
    | .hit path n => .ok (joinValues path, .inl n)
    | .done path cur broke =>
      if !broke && cur.terminal then .ok (joinValues path, .inl cur)
      else if mode == LONGEST_PREFIX_MODE then
        match backtrack [] path with
        | some (pfx, n) => .ok (pfx, .inl n)
        | none => if t.terminal then .ok ([], .inl t) else .error .keyError
      else .error .keyError

/-- `Trie.find`.  The source calls `self.find_node(string)` without forwarding
`mode`, so the walk always uses the default LONGEST_PREFIX_MODE; it then reads
`node.data`, which on the value-list variant would be an `AttributeError`. -/
def Trie.find (t : TrieNode σ α) (s : List σ) (mode : Nat) :
    Except PyErr (List σ × List α) :=
  match Trie.find_node t s LONGEST_PREFIX_MODE with
  | .error e => .error e
  | .ok (p, .inl n) => .ok (p, n.data)
  | .ok (_, .inr _) => .error .attributeError

/-- Rebuild the trie with `f` applied to the node at path `s` (the node
`find_node` walked to), modelling in-place mutation of that node. -/
def updateAt : TrieNode σ α → List σ → (TrieNode σ α → TrieNode σ α) → TrieNode σ α
  | t, [], f => f t
  | t, c :: rest, f =>
    .mk t.value t.terminal t.data (updateChild t.children c (fun n => updateAt n rest f))

/-- The mutation `remove` performs at the located node:
`node.data.remove(data)` followed by `if not node.data: node.terminal = False`. -/
def removeUpd (v : α) (n : TrieNode σ α) : TrieNode σ α :=
  .mk n.value (if (n.data.erase v).isEmpty then false else n.terminal) (n.data.erase v) n.children

/-- `Trie.remove`: locate the node with an EXACT_ONLY `find_node` (the raised
`KeyError` propagates and the trie is untouched); `list.remove` raises
`ValueError` without mutating when the value is absent, otherwise it drops the
first occurrence, and the node is demoted when its list becomes empty.
Returns the resulting trie together with the exception, if any. -/
def Trie.remove (t : TrieNode σ α) (s : List σ) (v : α) : TrieNode σ α × Option PyErr :=
  match Trie.find_node t s EXACT_ONLY_MODE with
  | .error e => (t, some e)
  | .ok (_, .inr _) => (t, some .attributeError)
  | .ok (_, .inl n) =>
    if v ∈ n.data then (updateAt t s (removeUpd v), none)
    else (t, some .valueError)

/-! Specification-side views of the trie, used to state the theorems. -/

/-- The node reached from `t` by following the symbols of `p`. -/
def nodeAt : TrieNode σ α → List σ → Option (TrieNode σ α)
  | t, [] => some t
  | t, c :: rest =>
    match lookupChild t.children c with
    | some n => nodeAt n rest
    | none => none

/-- Whether the key `p` is currently stored: a terminal node sits exactly at
`p`. -/
def terminalAtB (t : TrieNode σ α) (p : List σ) : Bool :=
  ((nodeAt t p).map TrieNode.terminal).getD false

/-- The nodes the `find_node` loop visits (root excluded): the nodes along
the longest prefix of `s` that exists in the trie. -/
def walkPath : TrieNode σ α → List σ → List (TrieNode σ α)
  | _, [] => []
  | t, c :: rest =>
    match lookupChild t.children c with
    | some n => n :: walkPath n rest
    | none => []

/-- The final `current` of the `find_node` loop, and whether the loop ended
with `break`. -/
def walkEnd : TrieNode σ α → List σ → TrieNode σ α × Bool
  | t, [] => (t, false)
  | t, c :: rest =>
    match lookupChild t.children c with
    | some n => walkEnd n rest
    | none => (t, true)

/-- The LONGEST_PREFIX tail of `find_node` with the loop already summarised
by `walkPath`/`walkEnd`: the consumed-to-end check, then the backward scan,
then the terminal-root fallback.  `find_node _ _ LONGEST_PREFIX_MODE` is proved
equal to this view. -/
def longestView (t : TrieNode σ α) (s : List σ) :
    Except PyErr (List σ × (TrieNode σ α ⊕ List α)) :=
  if !(walkEnd t s).2 && (walkEnd t s).1.terminal then
    .ok (joinValues (walkPath t s), .inl (walkEnd t s).1)
  else
    match backtrack [] (walkPath t s) with
    | some (pfx, n) => .ok (pfx, .inl n)
    | none => if t.terminal then .ok ([], .inl t) else .error .keyError

/-- Reference form of longest-prefix matching: the deepest terminal node on
the path of `s`, with the prefix of `s` that leads to it. -/
def bestMatch : TrieNode σ α → List σ → Option (List σ × TrieNode σ α)
  | t, [] => if t.terminal then some ([], t) else none
  | t, c :: rest =>
    match lookupChild t.children c with
    | some n =>
      match bestMatch n rest with
      | some (p, m) => some (c :: p, m)
      | none => if t.terminal then some ([], t) else none
    | none => if t.terminal then some ([], t) else none

mutual

/-- `P` holds at this node and at every descendant. -/
def allNodesB (P : TrieNode σ α → Bool) : TrieNode σ α → Bool
  | .mk v b d cs => P (.mk v b d cs) && allChildrenB P cs

/-- `P` holds at every node of every subtree in the child list. -/
def allChildrenB (P : TrieNode σ α → Bool) : List (σ × TrieNode σ α) → Bool
  | [] => true
  | (_, n) :: rest => allNodesB P n && allChildrenB P rest

end

mutual

/-- Every child entry stores, under key `c`, a node whose `value` is `some c`
— the invariant `add_child` maintains, which makes the joined path values
coincide with the walked symbols. -/
def coherentB : TrieNode σ α → Bool
  | .mk _ _ _ cs => coChildrenB cs

/-- Coherence of a child list. -/
def coChildrenB : List (σ × TrieNode σ α) → Bool
  | [] => true
  | (k, n) :: rest => (n.value == some k) && coherentB n && coChildrenB rest

end

/-- The node-local part of the data/terminal invariant: the value list is
non-empty exactly when the node is terminal. -/
def invB (n : TrieNode σ α) : Bool := n.terminal == !n.data.isEmpty

/-- One API-level mutation of the trie. -/
inductive Op (σ α : Type) : Type where
  | ins : List σ → α → Op σ α
  | rem : List σ → α → Op σ α

/-- Apply one operation; a failing `remove` raises after leaving the state
unchanged, so the state it hands on is its first component either way. -/
def applyOp (t : TrieNode σ α) : Op σ α → TrieNode σ α
  | .ins s v => Trie.insert t s v
  | .rem s v => (Trie.remove t s v).1

def applyOps : TrieNode σ α → List (Op σ α) → TrieNode σ α
  | t, [] => t
  | t, o :: rest => applyOps (applyOp t o) rest

/-- Tries built from the empty trie by a sequence of inserts and removes. -/
def Reachable (t : TrieNode σ α) : Prop :=
  ∃ l : List (Op σ α), applyOps root0 l = t

/-! The CIDR layer.  Keys are the top `mask` bits of the 32-bit address, a
Python string of `'0'`/`'1'` characters rendered here as `List Bool` with
`'1' ↦ true`, most significant bit first. -/

/-- Split a character list at every `'.'`, keeping empty groups (so `"1..2"`
gives three groups and is later rejected). -/
def splitDots : List Char → List (List Char)
  | [] => [[]]
  | c :: rest =>
    if c = '.' then [] :: splitDots rest
    else
      match splitDots rest with
      | [] => [[c]]
      | g :: gs => (c :: g) :: gs

/-- One dotted-quad component: a non-empty decimal digit string whose value
is at most 255.  Together with `inet_aton` below this models
`socket.inet_aton` restricted to canonical four-part decimal dotted quads;
the legacy one/two/three-part, hexadecimal and octal input forms accepted by
some C libraries are out of scope. -/
def parseOctet (s : List Char) : Option Nat :=
  if s ≠ [] && s.all Char.isDigit then
    let n := s.foldl (fun acc c => 10 * acc + (c.toNat - 48)) 0
    if n ≤ 255 then some n else none
  else none

/-- Parse a dotted-quad IPv4 address to its 32-bit value in network byte
order (the `struct.unpack` of the `socket.inet_aton` bytes). -/
def inet_aton (s : String) : Option Nat :=
  match (splitDots s.data).mapM parseOctet with
  | some [a, b, c, d] => some (((a * 256 + b) * 256 + c) * 256 + d)
  | _ => none

/-- `bin(integer)[2:].zfill(32)`: the `w`-bit binary expansion, most
significant bit first. -/
def natToBits (w n : Nat) : List Bool :=
  (List.range w).map (fun i => n.testBit (w - 1 - i))

/-- `_ip_to_binary_string`: parse, then take the 32-bit binary expansion.
A malformed address raises `OSError` from `socket.inet_aton`. -/
def ip_to_binary_string (ip : String) : Except PyErr (List Bool) :=
  match inet_aton ip with
  | some n => .ok (natToBits 32 n)
  | none => .error .oserror

/-- `int(prefix, 2)`: value of a binary string, most significant bit first. -/
def bitsToNat (l : List Bool) : Nat :=
  l.foldl (fun acc b => 2 * acc + (if b then 1 else 0)) 0

/-- `socket.inet_ntoa(struct.pack('!L', n))`: dotted-quad rendering of a
32-bit value. -/
def inet_ntoa (n : Nat) : String :=
  toString (n / 16777216 % 256) ++ "." ++ toString (n / 65536 % 256) ++ "." ++
    toString (n / 256 % 256) ++ "." ++ toString (n % 256)

/-- The `next_hop` field of a `CidrResult`: either the matched node's value
list, or the Python integer `0` placed there by the unroutable sentinel. -/
inductive NextHop (α : Type) : Type where
  | hops : List α → NextHop α
  | zero : NextHop α
  deriving DecidableEq, Repr

/-- `CidrResult = namedtuple('CidrResult', ['base', 'mask', 'next_hop'])`. -/
structure CidrResult (α : Type) : Type where
  base : String
  mask : Nat
  next_hop : NextHop α
  deriving DecidableEq, Repr

/-- `CidrClassifier.add_mapping`: key is the top `mask` bits of `base`. -/
def CidrClassifier.add_mapping (t : TrieNode Bool α) (base : String) (mask : Nat)
    (next_hop : α) : Except PyErr (TrieNode Bool α) :=
  match ip_to_binary_string base with
  | .error e => .error e
  | .ok bits => .ok (Trie.insert t (bits.take mask) next_hop)

/-- `CidrClassifier.remove_mapping`: same key derivation, then `Trie.remove`;
failures propagate (and leave the trie unchanged). -/
def CidrClassifier.remove_mapping (t : TrieNode Bool α) (base : String) (mask : Nat)
    (next_hop : α) : Except PyErr (TrieNode Bool α) :=
  match ip_to_binary_string base with
  | .error e => .error e
  | .ok bits =>
    match Trie.remove t (bits.take mask) next_hop with
    | (t', none) => .ok t'
    | (_, some e) => .error e

/-- `CidrClassifier.lookup`: parse the address (outside the `try`, so a parse
failure always propagates), do a longest-prefix `find`, rebuild the network
address by zero-padding the matched prefix to 32 bits, and derive the mask
from the prefix length.  Only a `KeyError` is caught, and only then does
`return_unroutable` yield the sentinel `("0.0.0.0", 0, 0)`. -/
def CidrClassifier.lookup (t : TrieNode Bool α) (ip : String) (return_unroutable : Bool) :
    Except PyErr (CidrResult α) :=
  match ip_to_binary_string ip with
  | .error e => .error e
  | .ok s =>
    match Trie.find t s LONGEST_PREFIX_MODE with
    | .ok (pfx, d) =>
      .ok ⟨inet_ntoa (bitsToNat (pfx ++ List.replicate (32 - pfx.length) false)), pfx.length,
        .hops d⟩
    | .error e =>
      if e == .keyError then
        if return_unroutable then .ok ⟨"0.0.0.0", 0, .zero⟩ else .error e
      else .error e

/-! Basic lemmas about the building blocks. -/

@[simp] theorem TrieNode.value_mk (v : Option σ) (b : Bool) (d : List α)
    (cs : List (σ × TrieNode σ α)) : (TrieNode.mk v b d cs).value = v := rfl

@[simp] theorem TrieNode.terminal_mk (v : Option σ) (b : Bool) (d : List α)
    (cs : List (σ × TrieNode σ α)) : (TrieNode.mk v b d cs).terminal = b := rfl

@[simp] theorem TrieNode.data_mk (v : Option σ) (b : Bool) (d : List α)
    (cs : List (σ × TrieNode σ α)) : (TrieNode.mk v b d cs).data = d := rfl

@[simp] theorem TrieNode.children_mk (v : Option σ) (b : Bool) (d : List α)
    (cs : List (σ × TrieNode σ α)) : (TrieNode.mk v b d cs).children = cs := rfl

@[simp] theorem removeUpd_value (v : α) (n : TrieNode σ α) :
    (removeUpd v n).value = n.value := rfl

@[simp] theorem removeUpd_children (v : α) (n : TrieNode σ α) :
    (removeUpd v n).children = n.children := rfl

@[simp] theorem removeUpd_data (v : α) (n : TrieNode σ α) :
    (removeUpd v n).data = n.data.erase v := rfl

theorem updateChild_map_fst (cs : List (σ × TrieNode σ α)) (c : σ)
    (f : TrieNode σ α → TrieNode σ α) :
    (updateChild cs c f).map Prod.fst = cs.map Prod.fst := by
  induction cs with
  | nil => rfl
  | cons p rest ih =>
    obtain ⟨k, n⟩ := p
    by_cases hk : k = c <;> simp [updateChild, hk, ih]

theorem lookupChild_updateChild (cs : List (σ × TrieNode σ α)) (c d : σ)
    (f : TrieNode σ α → TrieNode σ α) :
    lookupChild (updateChild cs c f) d =
      if c = d then (lookupChild cs c).map f else lookupChild cs d := by
  induction cs with
  | nil => by_cases h : c = d <;> simp [lookupChild, updateChild, h]
  | cons p rest ih =>
    obtain ⟨k, n⟩ := p
    by_cases hkc : k = c
    · subst hkc
      by_cases hkd : k = d <;> simp [lookupChild, updateChild, hkd]
    · by_cases hkd : k = d
      · subst hkd
        simp [lookupChild, updateChild, hkc]
        rw [if_neg (fun h => hkc h.symm)]
      · simp [lookupChild, updateChild, hkc, hkd, ih]

theorem lookupChild_append_self (cs : List (σ × TrieNode σ α)) (c : σ) (x : TrieNode σ α)
    (h : lookupChild cs c = none) : lookupChild (cs ++ [(c, x)]) c = some x := by
  induction cs with
  | nil => simp [lookupChild]
  | cons p rest ih =>
    obtain ⟨k, n⟩ := p
    by_cases hk : k = c
    · simp [lookupChild, hk] at h
    · simp [lookupChild, hk] at h ⊢
      exact ih h

@[simp] theorem joinValues_nil : joinValues ([] : List (TrieNode σ α)) = [] := rfl

theorem joinValues_cons (n : TrieNode σ α) (l : List (TrieNode σ α)) :
    joinValues (n :: l) = n.value.toList ++ joinValues l := by
  cases hv : n.value <;> simp [joinValues, hv]

theorem nodeAt_cons (t : TrieNode σ α) (c : σ) (l : List σ) (n : TrieNode σ α)
    (hc : lookupChild t.children c = some n) : nodeAt t (c :: l) = nodeAt n l := by
  simp [nodeAt, hc]

theorem terminalAtB_cons (t : TrieNode σ α) (c : σ) (l : List σ) (n : TrieNode σ α)
    (hc : lookupChild t.children c = some n) : terminalAtB t (c :: l) = terminalAtB n l := by
  simp [terminalAtB, nodeAt_cons t c l n hc]

@[simp] theorem terminalAtB_nil (t : TrieNode σ α) : terminalAtB t [] = t.terminal := rfl

/-! The `find_node` loop, summarised by `walkPath` and `walkEnd`. -/

theorem walkLoop_eq (mode : Nat) (h : (mode == SHORTEST_PREFIX_MODE) = false) (s : List σ) :
    ∀ (t : TrieNode σ α) (acc : List (TrieNode σ α)),
      walkLoop mode t acc s = .done (acc ++ walkPath t s) (walkEnd t s).1 (walkEnd t s).2 := by
  induction s with
  | nil => intro t acc; simp [walkLoop, walkPath, walkEnd]
  | cons c rest ih =>
    intro t acc
    cases hc : lookupChild t.children c with
    | none => simp [walkLoop, walkPath, walkEnd, hc]
    | some n => simp [walkLoop, walkPath, walkEnd, hc, h, ih]

theorem walkEnd_false (s : List σ) : ∀ t : TrieNode σ α,
    (walkEnd t s).2 = false → nodeAt t s = some (walkEnd t s).1 := by
  induction s with
  | nil => intro t _; rfl
  | cons c rest ih =>
    intro t h
    cases hc : lookupChild t.children c with
    | none => simp [walkEnd, hc] at h
    | some n =>
      simp [walkEnd, hc] at h ⊢
      simp [nodeAt, hc]
      exact ih n h

theorem walkEnd_true (s : List σ) : ∀ t : TrieNode σ α,
    (walkEnd t s).2 = true → nodeAt t s = none := by
  induction s with
  | nil => intro t h; simp [walkEnd] at h
  | cons c rest ih =>
    intro t h
    cases hc : lookupChild t.children c with
    | none => simp [nodeAt, hc]
    | some n =>
      simp [walkEnd, hc] at h
      simp [nodeAt, hc]
      exact ih n h

theorem nodeAt_walkEnd (s : List σ) : ∀ (t n : TrieNode σ α),
    nodeAt t s = some n → walkEnd t s = (n, false) := by
  induction s with
  | nil =>
    intro t n h
    simp [nodeAt] at h
    simp [walkEnd, h]
  | cons c rest ih =>
    intro t n h
    cases hc : lookupChild t.children c with
    | none => simp [nodeAt, hc] at h
    | some m =>
      simp [nodeAt, hc] at h
      simp [walkEnd, hc]
      exact ih m n h

theorem backtrack_acc (path : List (TrieNode σ α)) : ∀ acc : List σ,
    backtrack acc path = (backtrack [] path).map (fun r => (acc ++ r.1, r.2)) := by
  induction path with
  | nil => intro acc; simp [backtrack]
  | cons n rest ih =>
    intro acc
    rw [backtrack, backtrack, ih (acc ++ n.value.toList), ih ([] ++ n.value.toList)]
    cases backtrack [] rest with
    | none => by_cases ht : n.terminal <;> simp [ht]
    | some r => simp

/-! Coherence: child entries carry their own key as `value`. -/

theorem coherentB_eq (t : TrieNode σ α) : coherentB t = coChildrenB t.children := by
  cases t
  rfl

theorem coChildrenB_cons (k : σ) (n : TrieNode σ α) (rest : List (σ × TrieNode σ α)) :
    coChildrenB ((k, n) :: rest) = ((n.value == some k) && coherentB n && coChildrenB rest) :=
  rfl

theorem coChildren_lookup (cs : List (σ × TrieNode σ α)) (hco : coChildrenB cs = true)
    (c : σ) (n : TrieNode σ α) (h : lookupChild cs c = some n) :
    n.value = some c ∧ coherentB n = true := by
  induction cs with
  | nil => simp [lookupChild] at h
  | cons p rest ih =>
    obtain ⟨k, m⟩ := p
    rw [coChildrenB_cons] at hco
    simp only [Bool.and_eq_true, beq_iff_eq] at hco
    obtain ⟨⟨hv, hcm⟩, hrest⟩ := hco
    by_cases hk : k = c
    · subst hk
      simp [lookupChild] at h
      subst h
      exact ⟨hv, hcm⟩
    · simp [lookupChild, hk] at h
      exact ih hrest h

/-! `find_node` in LONGEST mode equals the `longestView` summary, which in
turn equals the reference `bestMatch` on coherent tries. -/

theorem find_node_longest_eq (t : TrieNode σ α) (s : List σ) :
    Trie.find_node t s LONGEST_PREFIX_MODE = longestView t s := by
  rw [Trie.find_node, walkLoop_eq LONGEST_PREFIX_MODE rfl s t []]
  simp [longestView, LONGEST_PREFIX_MODE, SHORTEST_PREFIX_MODE]

theorem longestView_eq_bestMatch (s : List σ) : ∀ t : TrieNode σ α, coherentB t = true →
    longestView t s = (match bestMatch t s with
      | some (p, m) => .ok (p, Sum.inl m)
      | none => .error .keyError) := by
  induction s with
  | nil =>
    intro t _
    by_cases ht : t.terminal <;>
      simp [longestView, walkEnd, walkPath, backtrack, bestMatch, ht]
  | cons c rest ih =>
    intro t hco
    cases hc : lookupChild t.children c with
    | none =>
      by_cases ht : t.terminal <;>
        simp [longestView, walkEnd, walkPath, backtrack, bestMatch, hc, ht]
    | some n =>
      obtain ⟨hv, hcn⟩ := coChildren_lookup t.children (coherentB_eq t ▸ hco) c n hc
      have hWP : walkPath t (c :: rest) = n :: walkPath n rest := by simp [walkPath, hc]
      have hWE : walkEnd t (c :: rest) = walkEnd n rest := by simp [walkEnd, hc]
      have hJ : joinValues (n :: walkPath n rest) = c :: joinValues (walkPath n rest) := by
        rw [joinValues_cons, hv]
        rfl
      have hBT : backtrack [] (n :: walkPath n rest) =
          (match backtrack [] (walkPath n rest) with
            | some r => some (c :: r.1, r.2)
            | none => if n.terminal then some ([c], n) else none) := by
        rw [backtrack, backtrack_acc, hv]
        cases backtrack [] (walkPath n rest) with
        | none => by_cases ht : n.terminal <;> simp [ht]
        | some r => simp
      have hBM : bestMatch t (c :: rest) = (match bestMatch n rest with
        | some (p, m) => some (c :: p, m)
        | none => if t.terminal then some ([], t) else none) := by
        rw [bestMatch, hc]
      have ihn := ih n hcn
      rw [longestView] at ihn ⊢
      rw [hWP, hWE, hJ, hBT, hBM]
      by_cases hcond : (!(walkEnd n rest).2 && (walkEnd n rest).1.terminal) = true
      · rw [if_pos hcond] at ihn ⊢
        cases hbm : bestMatch n rest with
        | none =>
          rw [hbm] at ihn
          exact absurd ihn (by simp)
        | some pm =>
          obtain ⟨p, m⟩ := pm
          rw [hbm] at ihn
          simp only [Except.ok.injEq, Prod.mk.injEq, Sum.inl.injEq] at ihn
          simp [ihn.1, ihn.2]
      · rw [if_neg hcond] at ihn ⊢
        cases hbk : backtrack [] (walkPath n rest) with
        | some r =>
          rw [hbk] at ihn
          cases hbm : bestMatch n rest with
          | none =>
            rw [hbm] at ihn
            exact absurd ihn (by simp)
          | some pm =>
            obtain ⟨p, m⟩ := pm
            rw [hbm] at ihn
            simp only [Except.ok.injEq, Prod.mk.injEq, Sum.inl.injEq] at ihn
            simp [ihn.1, ihn.2]
        | none =>
          rw [hbk] at ihn
          by_cases hnt : n.terminal
          · rw [if_pos hnt] at ihn ⊢
            cases hbm : bestMatch n rest with
            | none =>
              rw [hbm] at ihn
              exact absurd ihn (by simp)
            | some pm =>
              obtain ⟨p, m⟩ := pm
              rw [hbm] at ihn
              simp only [Except.ok.injEq, Prod.mk.injEq, Sum.inl.injEq] at ihn
              simp [← ihn.1, ihn.2]
          · rw [if_neg hnt] at ihn ⊢
            cases hbm : bestMatch n rest with
            | some pm =>
              rw [hbm] at ihn
              exact absurd ihn (by simp)
            | none =>
              rw [hbm] at ihn
              by_cases ht : t.terminal <;> simp [ht]

/-! What `bestMatch` computes: the longest prefix of the key stored as a
terminal node. -/

theorem bestMatch_cons_some (t : TrieNode σ α) (c : σ) (rest : List σ) (n : TrieNode σ α)
    (hc : lookupChild t.children c = some n) :
    bestMatch t (c :: rest) = (match bestMatch n rest with
      | some (p, m) => some (c :: p, m)
      | none => if t.terminal then some ([], t) else none) := by
  rw [bestMatch, hc]

theorem bestMatch_some (s : List σ) : ∀ (t : TrieNode σ α) (p : List σ) (m : TrieNode σ α),
    bestMatch t s = some (p, m) →
    ∃ k, k ≤ s.length ∧ p = s.take k ∧ nodeAt t p = some m ∧ m.terminal = true := by
  induction s with
  | nil =>
    intro t p m h
    by_cases ht : t.terminal <;> simp [bestMatch, ht] at h
    obtain ⟨hp, htm⟩ := h
    subst hp
    subst htm
    exact ⟨0, le_refl _, rfl, rfl, ht⟩
  | cons c rest ih =>
    intro t p m h
    cases hc : lookupChild t.children c with
    | none =>
      by_cases ht : t.terminal <;> simp [bestMatch, hc, ht] at h
      obtain ⟨hp, htm⟩ := h
      subst hp
      subst htm
      exact ⟨0, Nat.zero_le _, rfl, rfl, ht⟩
    | some n =>
      rw [bestMatch_cons_some t c rest n hc] at h
      cases hbm : bestMatch n rest with
      | some pm =>
        obtain ⟨p', m'⟩ := pm
        rw [hbm] at h
        simp only [Option.some.injEq, Prod.mk.injEq] at h
        obtain ⟨k, hk, hp', hn, hterm⟩ := ih n p' m' hbm
        refine ⟨k + 1, by simpa using Nat.succ_le_succ hk, ?_, ?_, h.2 ▸ hterm⟩
        · simp [← h.1, hp']
        · rw [← h.1, nodeAt_cons t c p' n hc, hn, h.2]
      | none =>
        rw [hbm] at h
        by_cases ht : t.terminal <;> simp [ht] at h
        obtain ⟨hp, htm⟩ := h
        subst hp
        subst htm
        exact ⟨0, Nat.zero_le _, rfl, rfl, ht⟩

theorem bestMatch_none (s : List σ) : ∀ t : TrieNode σ α, bestMatch t s = none →
    ∀ k, k ≤ s.length → terminalAtB t (s.take k) = false := by
  induction s with
  | nil =>
    intro t h k hk
    have hk0 : k = 0 := Nat.le_zero.mp (by simpa using hk)
    subst hk0
    by_cases ht : t.terminal <;> simp [bestMatch, ht] at h ⊢
  | cons c rest ih =>
    intro t h k hk
    cases hc : lookupChild t.children c with
    | none =>
      by_cases ht : t.terminal
      · simp [bestMatch, hc, ht] at h
      · cases k with
        | zero => simpa using ht
        | succ j =>
          simp only [List.take_succ_cons]
          rw [terminalAtB]
          simp [nodeAt, hc]
    | some n =>
      rw [bestMatch_cons_some t c rest n hc] at h
      cases hbm : bestMatch n rest with
      | some pm =>
        obtain ⟨p', m'⟩ := pm
        rw [hbm] at h
        simp at h
      | none =>
        rw [hbm] at h
        by_cases ht : t.terminal
        · simp [ht] at h
        · cases k with
          | zero => simpa using ht
          | succ j =>
            simp only [List.take_succ_cons]
            rw [terminalAtB_cons t c _ n hc]
            exact ih n hbm j (by simpa using hk)

theorem bestMatch_max (s : List σ) : ∀ (t : TrieNode σ α) (p : List σ) (m : TrieNode σ α),
    bestMatch t s = some (p, m) →
    ∀ k, k ≤ s.length → terminalAtB t (s.take k) = true → k ≤ p.length := by
  induction s with
  | nil =>
    intro t p m _ k hk _
    have hk0 : k = 0 := Nat.le_zero.mp (by simpa using hk)
    subst hk0
    exact Nat.zero_le _
  | cons c rest ih =>
    intro t p m h k hk hterm
    cases k with
    | zero => exact Nat.zero_le _
    | succ j =>
      cases hc : lookupChild t.children c with
      | none =>
        simp only [List.take_succ_cons] at hterm
        rw [terminalAtB] at hterm
        simp [nodeAt, hc] at hterm
      | some n =>
        simp only [List.take_succ_cons] at hterm
        rw [terminalAtB_cons t c _ n hc] at hterm
        rw [bestMatch_cons_some t c rest n hc] at h
        cases hbm : bestMatch n rest with
        | some pm =>
          obtain ⟨p', m'⟩ := pm
          rw [hbm] at h
          simp only [Option.some.injEq, Prod.mk.injEq] at h
          have := ih n p' m' hbm j (by simpa using hk) hterm
          rw [← h.1]
          simpa using Nat.succ_le_succ this
        | none =>
          exact absurd (bestMatch_none rest n hbm j (by simpa using hk) ▸ hterm)
            (by simp)

/-! `find_node` in EXACT_ONLY mode. -/

theorem find_node_exact_eq (t : TrieNode σ α) (s : List σ) :
    Trie.find_node t s EXACT_ONLY_MODE =
      (nodeAt t s).elim (.error .keyError) (fun n =>
        if n.terminal then .ok (joinValues (walkPath t s), .inl n) else .error .keyError) := by
  rw [Trie.find_node, walkLoop_eq EXACT_ONLY_MODE rfl s t []]
  cases hb : (walkEnd t s).2 with
  | false =>
    have hn := walkEnd_false s t hb
    rw [hn]
    by_cases ht : (walkEnd t s).1.terminal <;>
      simp [EXACT_ONLY_MODE, SHORTEST_PREFIX_MODE, LONGEST_PREFIX_MODE, hb, ht]
  | true =>
    have hn := walkEnd_true s t hb
    rw [hn]
    simp [EXACT_ONLY_MODE, SHORTEST_PREFIX_MODE, LONGEST_PREFIX_MODE, hb]

/-! How `updateAt` changes `nodeAt`. -/

theorem nodeAt_updateAt_self (f : TrieNode σ α → TrieNode σ α) (s : List σ) :
    ∀ t : TrieNode σ α, nodeAt (updateAt t s f) s = (nodeAt t s).map f := by
  induction s with
  | nil => intro t; rfl
  | cons c rest ih =>
    intro t
    rw [updateAt]
    rw [nodeAt, TrieNode.children_mk, lookupChild_updateChild, if_pos rfl]
    cases hc : lookupChild t.children c with
    | none => simp [nodeAt, hc]
    | some n => simp [nodeAt, hc, ih n]

theorem nodeAt_updateAt_removeUpd (v : α) (s : List σ) : ∀ (t : TrieNode σ α) (p : List σ),
    ((nodeAt (updateAt t s (removeUpd v)) p).isSome = (nodeAt t p).isSome)
    ∧ ((nodeAt (updateAt t s (removeUpd v)) p).map (fun n => n.children.map Prod.fst)
        = (nodeAt t p).map (fun n => n.children.map Prod.fst))
    ∧ ((nodeAt (updateAt t s (removeUpd v)) p).map TrieNode.value
        = (nodeAt t p).map TrieNode.value)
    ∧ (p ≠ s →
        (nodeAt (updateAt t s (removeUpd v)) p).map (fun n => (n.terminal, n.data))
          = (nodeAt t p).map (fun n => (n.terminal, n.data))) := by
  induction s with
  | nil =>
    intro t p
    rw [updateAt]
    cases p with
    | nil =>
      refine ⟨rfl, by simp [nodeAt], by simp [nodeAt], fun hp => absurd rfl hp⟩
    | cons d r =>
      have heq : nodeAt (removeUpd v t) (d :: r) = nodeAt t (d :: r) := by
        rw [nodeAt, nodeAt, removeUpd_children]
      exact ⟨by rw [heq], by rw [heq], by rw [heq], fun _ => by rw [heq]⟩
  | cons c rest ih =>
    intro t p
    rw [updateAt]
    cases p with
    | nil =>
      refine ⟨rfl, ?_, by simp [nodeAt], fun _ => by simp [nodeAt]⟩
      simp [nodeAt, updateChild_map_fst]
    | cons d r =>
      rw [nodeAt, nodeAt, TrieNode.children_mk, lookupChild_updateChild]
      by_cases hcd : c = d
      · subst hcd
        rw [if_pos rfl]
        cases hc : lookupChild t.children c with
        | none => exact ⟨rfl, rfl, rfl, fun _ => rfl⟩
        | some n =>
          obtain ⟨h1, h2, h3, h4⟩ := ih n r
          exact ⟨h1, h2, h3, fun hp => h4 (fun h => hp (by rw [h]))⟩
      · rw [if_neg hcd]
        cases lookupChild t.children d with
        | none => exact ⟨rfl, rfl, rfl, fun _ => rfl⟩
        | some n => exact ⟨rfl, rfl, rfl, fun _ => rfl⟩

/-! What `remove` computes, via the EXACT_ONLY characterisation. -/

theorem find_node_exact_node (t : TrieNode σ α) (s : List σ) (p : List σ)
    (r : TrieNode σ α ⊕ List α) (h : Trie.find_node t s EXACT_ONLY_MODE = .ok (p, r)) :
    ∃ n, r = Sum.inl n ∧ nodeAt t s = some n ∧ n.terminal = true := by
  rw [find_node_exact_eq] at h
  cases hn : nodeAt t s with
  | none =>
    rw [hn] at h
    exact absurd h (by simp)
  | some n =>
    rw [hn] at h
    simp only [Option.elim_some] at h
    by_cases ht : n.terminal
    · rw [if_pos ht] at h
      simp only [Except.ok.injEq, Prod.mk.injEq] at h
      exact ⟨n, h.2.symm, rfl, ht⟩
    · rw [if_neg ht] at h
      exact absurd h (by simp)

theorem remove_eq_of_found (t : TrieNode σ α) (s : List σ) (v : α) (n : TrieNode σ α)
    (hn : nodeAt t s = some n) (ht : n.terminal = true) (hv : v ∈ n.data) :
    Trie.remove t s v = (updateAt t s (removeUpd v), none) := by
  rw [Trie.remove, find_node_exact_eq, hn]
  simp [ht, hv]

theorem remove_keyError (t : TrieNode σ α) (s : List σ) (v : α)
    (h : terminalAtB t s = false) : Trie.remove t s v = (t, some .keyError) := by
  rw [Trie.remove, find_node_exact_eq]
  rw [terminalAtB] at h
  cases hn : nodeAt t s with
  | none => rfl
  | some n =>
    rw [hn] at h
    simp at h
    simp [h]

theorem remove_valueError (t : TrieNode σ α) (s : List σ) (v : α) (n : TrieNode σ α)
    (hn : nodeAt t s = some n) (ht : n.terminal = true) (hv : v ∉ n.data) :
    Trie.remove t s v = (t, some .valueError) := by
  rw [Trie.remove, find_node_exact_eq, hn]
  simp [ht, hv]

/-- The state `remove` hands on is either the original trie (on failure) or
the original with the removal applied at `s` (on success). -/
theorem remove_fst_cases (t : TrieNode σ α) (s : List σ) (v : α) :
    (Trie.remove t s v).1 = t ∨ (Trie.remove t s v).1 = updateAt t s (removeUpd v) := by
  rw [Trie.remove]
  cases hf : Trie.find_node t s EXACT_ONLY_MODE with
  | error e => exact Or.inl rfl
  | ok pr =>
    obtain ⟨p, r⟩ := pr
    cases r with
    | inr d => exact Or.inl rfl
    | inl n =>
      by_cases hv : v ∈ n.data
      · right
        simp [hv]
      · left
        simp [hv]

/-! What `insert` computes at its own key. -/

theorem insert_nodeAt (s : List σ) : ∀ (t : TrieNode σ α) (v : α),
    ∃ n', nodeAt (Trie.insert t s v) s = some n' ∧ n'.terminal = true ∧
      n'.data = (match nodeAt t s with
        | some n => if n.terminal then n.data else []
        | none => []) ++ [v] ∧
      n'.children = (match nodeAt t s with
        | some n => n.children
        | none => []) := by
  induction s with
  | nil =>
    intro t v
    refine ⟨_, rfl, rfl, ?_, ?_⟩ <;> simp [nodeAt, Trie.insert]
  | cons c rest ih =>
    intro t v
    rw [Trie.insert]
    cases hc : lookupChild t.children c with
    | some n =>
      obtain ⟨n', h1, h2, h3, h4⟩ := ih n v
      refine ⟨n', ?_, h2, ?_, ?_⟩
      · rw [nodeAt, TrieNode.children_mk, lookupChild_updateChild, if_pos rfl, hc]
        exact h1
      · rw [nodeAt_cons t c rest n hc]
        exact h3
      · rw [nodeAt_cons t c rest n hc]
        exact h4
    | none =>
      obtain ⟨n', h1, h2, h3, h4⟩ := ih (newNode c) v
      have hnode : nodeAt t (c :: rest) = none := by simp [nodeAt, hc]
      refine ⟨n', ?_, h2, ?_, ?_⟩
      · rw [nodeAt, TrieNode.children_mk,
          lookupChild_append_self t.children c _ hc]
        exact h1
      · rw [hnode]
        rw [h3]
        cases rest with
        | nil => simp [nodeAt, newNode]
        | cons d r => simp [nodeAt, newNode, lookupChild]
      · rw [hnode, h4]
        cases rest with
        | nil => simp [nodeAt, newNode]
        | cons d r => simp [nodeAt, newNode, lookupChild]

/-! Preservation of coherence and of the terminal/data invariant by the API
operations, giving them on every reachable trie. -/

theorem coChildrenB_nil : coChildrenB ([] : List (σ × TrieNode σ α)) = true := rfl

theorem coChildrenB_append (cs ds : List (σ × TrieNode σ α)) :
    coChildrenB (cs ++ ds) = (coChildrenB cs && coChildrenB ds) := by
  induction cs with
  | nil => simp [coChildrenB_nil]
  | cons p rest ih =>
    obtain ⟨k, n⟩ := p
    rw [List.cons_append, coChildrenB_cons, coChildrenB_cons, ih]
    simp [Bool.and_assoc]

theorem allNodesB_eq (P : TrieNode σ α → Bool) (t : TrieNode σ α) :
    allNodesB P t = (P t && allChildrenB P t.children) := by
  cases t
  rfl

theorem allChildrenB_nil (P : TrieNode σ α → Bool) :
    allChildrenB P ([] : List (σ × TrieNode σ α)) = true := rfl

theorem allChildrenB_cons (P : TrieNode σ α → Bool) (k : σ) (n : TrieNode σ α)
    (rest : List (σ × TrieNode σ α)) :
    allChildrenB P ((k, n) :: rest) = (allNodesB P n && allChildrenB P rest) := rfl

theorem allChildrenB_append (P : TrieNode σ α → Bool) (cs ds : List (σ × TrieNode σ α)) :
    allChildrenB P (cs ++ ds) = (allChildrenB P cs && allChildrenB P ds) := by
  induction cs with
  | nil => simp [allChildrenB_nil]
  | cons p rest ih =>
    obtain ⟨k, n⟩ := p
    rw [List.cons_append, allChildrenB_cons, allChildrenB_cons, ih]
    simp [Bool.and_assoc]

theorem coChildrenB_updateChild (cs : List (σ × TrieNode σ α)) (c : σ)
    (f : TrieNode σ α → TrieNode σ α)
    (hf : ∀ n : TrieNode σ α, coherentB n = true → (f n).value = n.value ∧ coherentB (f n) = true)
    (hco : coChildrenB cs = true) : coChildrenB (updateChild cs c f) = true := by
  induction cs with
  | nil => exact hco
  | cons p rest ih =>
    obtain ⟨k, n⟩ := p
    rw [coChildrenB_cons] at hco
    simp only [Bool.and_eq_true, beq_iff_eq] at hco
    obtain ⟨⟨hv, hcn⟩, hrest⟩ := hco
    obtain ⟨hfv, hfc⟩ := hf n hcn
    by_cases hk : k = c
    · subst hk
      rw [updateChild, if_pos rfl, coChildrenB_cons]
      simp [hfv, hv, hfc, hrest]
    · rw [updateChild, if_neg hk, coChildrenB_cons]
      simp [hv, hcn, ih hrest]

theorem allChildrenB_updateChild (P : TrieNode σ α → Bool) (cs : List (σ × TrieNode σ α))
    (c : σ) (f : TrieNode σ α → TrieNode σ α)
    (hf : ∀ n : TrieNode σ α, allNodesB P n = true → allNodesB P (f n) = true)
    (h : allChildrenB P cs = true) : allChildrenB P (updateChild cs c f) = true := by
  induction cs with
  | nil => exact h
  | cons p rest ih =>
    obtain ⟨k, n⟩ := p
    rw [allChildrenB_cons] at h
    simp only [Bool.and_eq_true] at h
    by_cases hk : k = c
    · subst hk
      rw [updateChild, if_pos rfl, allChildrenB_cons]
      simp [hf n h.1, h.2]
    · rw [updateChild, if_neg hk, allChildrenB_cons]
      simp [h.1, ih h.2]

theorem insert_value_eq (s : List σ) (t : TrieNode σ α) (v : α) :
    (Trie.insert t s v).value = t.value := by
  cases s with
  | nil => rfl
  | cons c rest => cases hc : lookupChild t.children c <;> simp [Trie.insert, hc]

theorem insert_coherent (s : List σ) : ∀ (t : TrieNode σ α) (v : α),
    coherentB t = true → coherentB (Trie.insert t s v) = true := by
  induction s with
  | nil =>
    intro t v h
    rw [coherentB_eq] at h ⊢
    simpa [Trie.insert] using h
  | cons c rest ih =>
    intro t v h
    rw [coherentB_eq] at h
    cases hc : lookupChild t.children c with
    | some n =>
      simp only [Trie.insert, hc, coherentB_eq, TrieNode.children_mk]
      exact coChildrenB_updateChild t.children c _
        (fun m hm => ⟨insert_value_eq rest m v, ih m v hm⟩) h
    | none =>
      simp only [Trie.insert, hc, coherentB_eq, TrieNode.children_mk]
      rw [coChildrenB_append, h, Bool.true_and, coChildrenB_cons]
      have hv : (Trie.insert (newNode c) rest v).value = some c := by
        rw [insert_value_eq rest (newNode c) v]
        rfl
      have hco : coherentB (Trie.insert (newNode c) rest v) = true :=
        ih (newNode c) v (by rw [coherentB_eq]; rfl)
      simp [hv, hco, coChildrenB_nil]

theorem invB_mk (v : Option σ) (b : Bool) (d : List α) (cs : List (σ × TrieNode σ α)) :
    invB (TrieNode.mk v b d cs) = (b == !d.isEmpty) := rfl

theorem insert_inv (s : List σ) : ∀ (t : TrieNode σ α) (v : α),
    allNodesB invB t = true → allNodesB invB (Trie.insert t s v) = true := by
  induction s with
  | nil =>
    intro t v h
    rw [allNodesB_eq] at h ⊢
    simp only [Bool.and_eq_true] at h
    rw [Trie.insert, TrieNode.children_mk, invB_mk]
    simp [h.2]
  | cons c rest ih =>
    intro t v h
    rw [allNodesB_eq] at h
    simp only [Bool.and_eq_true] at h
    cases hc : lookupChild t.children c with
    | some n =>
      simp only [Trie.insert, hc]
      rw [allNodesB_eq, TrieNode.children_mk]
      have hP : invB (TrieNode.mk t.value t.terminal t.data
          (updateChild t.children c (fun m => Trie.insert m rest v))) = invB t := by
        rw [invB_mk]
        cases t
        rfl
      rw [hP]
      simp only [Bool.and_eq_true]
      exact ⟨h.1, allChildrenB_updateChild invB t.children c _ (fun m hm => ih m v hm) h.2⟩
    | none =>
      simp only [Trie.insert, hc]
      rw [allNodesB_eq, TrieNode.children_mk]
      have hP : invB (TrieNode.mk t.value t.terminal t.data
          (t.children ++ [(c, Trie.insert (newNode c) rest v)])) = invB t := by
        rw [invB_mk]
        cases t
        rfl
      rw [hP]
      rw [allChildrenB_append, allChildrenB_cons]
      have hnew : allNodesB invB (Trie.insert (newNode c) rest v) = true :=
        ih (newNode c) v (by rw [allNodesB_eq]; rfl)
      simp [h.1, h.2, hnew, allChildrenB_nil]

theorem removeUpd_coherent (v : α) (n : TrieNode σ α) (h : coherentB n = true) :
    coherentB (removeUpd v n) = true := by
  rw [coherentB_eq, removeUpd_children, ← coherentB_eq]
  exact h

theorem removeUpd_inv (v : α) (n : TrieNode σ α) (h : allNodesB invB n = true) :
    allNodesB invB (removeUpd v n) = true := by
  rw [allNodesB_eq] at h ⊢
  simp only [Bool.and_eq_true] at h
  rw [removeUpd_children]
  refine (Bool.and_eq_true _ _).mpr ⟨?_, h.2⟩
  rw [removeUpd, invB_mk]
  cases he : (n.data.erase v).isEmpty
  · have hne : n.data.isEmpty = false := by
      cases hd : n.data with
      | nil => rw [hd] at he; simp [List.erase] at he
      | cons a l => rfl
    have ht : n.terminal = true := by
      have := h.1
      rw [invB] at this
      rw [hne] at this
      simpa using this
    simp [ht]
  · simp

theorem updateAt_value (v : α) (s : List σ) (t : TrieNode σ α) :
    (updateAt t s (removeUpd v)).value = t.value := by
  cases s with
  | nil => rfl
  | cons c rest => rfl

theorem updateAt_coherent (v : α) (s : List σ) : ∀ t : TrieNode σ α,
    coherentB t = true → coherentB (updateAt t s (removeUpd v)) = true := by
  induction s with
  | nil => intro t h; exact removeUpd_coherent v t h
  | cons c rest ih =>
    intro t h
    rw [updateAt, coherentB_eq, TrieNode.children_mk]
    rw [coherentB_eq] at h
    exact coChildrenB_updateChild t.children c _
      (fun m hm => ⟨updateAt_value v rest m, ih m hm⟩) h

theorem updateAt_inv (v : α) (s : List σ) : ∀ t : TrieNode σ α,
    allNodesB invB t = true → allNodesB invB (updateAt t s (removeUpd v)) = true := by
  induction s with
  | nil => intro t h; exact removeUpd_inv v t h
  | cons c rest ih =>
    intro t h
    rw [updateAt, allNodesB_eq, TrieNode.children_mk]
    rw [allNodesB_eq] at h
    simp only [Bool.and_eq_true] at h
    have hP : invB (TrieNode.mk t.value t.terminal t.data
        (updateChild t.children c (fun m => updateAt m rest (removeUpd v)))) = invB t := by
      rw [invB_mk]
      cases t
      rfl
    rw [hP]
    simp only [Bool.and_eq_true]
    exact ⟨h.1, allChildrenB_updateChild invB t.children c _ (fun m hm => ih m hm) h.2⟩

theorem applyOps_preserve {Q : TrieNode σ α → Prop}
    (h : ∀ (t : TrieNode σ α) (o : Op σ α), Q t → Q (applyOp t o)) :
    ∀ (l : List (Op σ α)) (t : TrieNode σ α), Q t → Q (applyOps t l) := by
  intro l
  induction l with
  | nil => intro t ht; exact ht
  | cons o rest ih => intro t ht; exact ih (applyOp t o) (h t o ht)

theorem reachable_coherent (t : TrieNode σ α) (h : Reachable t) : coherentB t = true := by
  obtain ⟨l, rfl⟩ := h
  have hstep : ∀ (u : TrieNode σ α) (o : Op σ α),
      coherentB u = true → coherentB (applyOp u o) = true := by
    intro u o hu
    cases o with
    | ins s v => exact insert_coherent s u v hu
    | rem s v =>
      rw [applyOp]
      rcases remove_fst_cases u s v with hcase | hcase
      · rw [hcase]; exact hu
      · rw [hcase]; exact updateAt_coherent v s u hu
  exact applyOps_preserve hstep l root0 rfl

/-! Shape of LONGEST_PREFIX results, and the CIDR layer. -/

theorem find_node_longest_ok_inl (t : TrieNode σ α) (s : List σ) (p : List σ)
    (r : TrieNode σ α ⊕ List α) (h : Trie.find_node t s LONGEST_PREFIX_MODE = .ok (p, r)) :
    ∃ n, r = Sum.inl n := by
  rw [find_node_longest_eq, longestView] at h
  split at h
  · exact ⟨_, (by injection h with h1; injection h1 with h2 h3; exact h3.symm)⟩
  · split at h
    · rename_i pfx n heq
      exact ⟨n, by injection h with h1; injection h1 with h2 h3; exact h3.symm⟩
    · split at h
      · exact ⟨t, by injection h with h1; injection h1 with h2 h3; exact h3.symm⟩
      · exact absurd h (by simp)

theorem find_node_longest_error_eq (t : TrieNode σ α) (s : List σ) (e : PyErr)
    (h : Trie.find_node t s LONGEST_PREFIX_MODE = .error e) : e = PyErr.keyError := by
  rw [find_node_longest_eq, longestView] at h
  split at h
  · exact absurd h (by simp)
  · split at h
    · exact absurd h (by simp)
    · split at h
      · exact absurd h (by simp)
      · injection h with h1
        exact h1.symm

theorem find_longest_eq_bestMatch (t : TrieNode σ α) (hco : coherentB t = true)
    (s : List σ) (mode : Nat) :
    Trie.find t s mode = (match bestMatch t s with
      | some (p, m) => .ok (p, m.data)
      | none => .error .keyError) := by
  rw [Trie.find, find_node_longest_eq, longestView_eq_bestMatch s t hco]
  cases bestMatch t s with
  | none => rfl
  | some pm =>
    obtain ⟨p, m⟩ := pm
    rfl

theorem natToBits_length (w n : Nat) : (natToBits w n).length = w := by
  simp [natToBits]

theorem ip_to_binary_string_length (ip : String) (s : List Bool)
    (h : ip_to_binary_string ip = .ok s) : s.length = 32 := by
  rw [ip_to_binary_string] at h
  cases hi : inet_aton ip with
  | none =>
    rw [hi] at h
    exact absurd h (by simp)
  | some n =>
    rw [hi] at h
    simp only [Except.ok.injEq] at h
    rw [← h]
    exact natToBits_length 32 n

theorem terminalAtB_some (t : TrieNode σ α) (s : List σ) (h : terminalAtB t s = true) :
    ∃ n, nodeAt t s = some n ∧ n.terminal = true := by
  rw [terminalAtB] at h
  cases hx : nodeAt t s with
  | none =>
    rw [hx] at h
    simp at h
  | some n =>
    rw [hx] at h
    simp at h
    exact ⟨n, rfl, h⟩

/-! The claims. -/

/-- C1: on every trie built by inserts and removes, `find_node` in
LONGEST_PREFIX mode fails with KeyNotFound exactly when no prefix of the key
(the empty root prefix included) is a stored terminal key, and otherwise
returns the longest stored prefix of the key together with its node. -/
theorem c1_find_node_longest_spec (t : TrieNode σ α) (hr : Reachable t) (s : List σ) :
    (∀ e, Trie.find_node t s LONGEST_PREFIX_MODE = .error e →
      e = PyErr.keyError ∧ ∀ k, k ≤ s.length → terminalAtB t (s.take k) = false)
    ∧ (∀ p r, Trie.find_node t s LONGEST_PREFIX_MODE = .ok (p, r) →
      ∃ n k, r = Sum.inl n ∧ k ≤ s.length ∧ p = s.take k ∧ nodeAt t p = some n ∧
        n.terminal = true ∧
        ∀ j, j ≤ s.length → terminalAtB t (s.take j) = true → j ≤ k) := by
  have hco := reachable_coherent t hr
  have heq : Trie.find_node t s LONGEST_PREFIX_MODE = (match bestMatch t s with
      | some (p, m) => .ok (p, Sum.inl m)
      | none => .error .keyError) := by
    rw [find_node_longest_eq, longestView_eq_bestMatch s t hco]
  constructor
  · intro e he
    rw [heq] at he
    cases hbm : bestMatch t s with
    | some pm =>
      obtain ⟨p, m⟩ := pm
      rw [hbm] at he
      exact absurd he (by simp)
    | none =>
      rw [hbm] at he
      injection he with h1
      exact ⟨h1.symm, bestMatch_none s t hbm⟩
  · intro p r hok
    rw [heq] at hok
    cases hbm : bestMatch t s with
    | none =>
      rw [hbm] at hok
      exact absurd hok (by simp)
    | some pm =>
      obtain ⟨p', m⟩ := pm
      rw [hbm] at hok
      simp only [Except.ok.injEq, Prod.mk.injEq] at hok
      obtain ⟨k, hk, hp', hn, hterm⟩ := bestMatch_some s t p' m hbm
      refine ⟨m, k, hok.2.symm, hk, ?_, ?_, hterm, ?_⟩
      · rw [← hok.1]
        exact hp'
      · rw [← hok.1]
        exact hn
      · intro j hj hjt
        have hmax := bestMatch_max s t p' m hbm j hj hjt
        have hplen : p'.length = k := by
          rw [hp', List.length_take]
          exact Nat.min_eq_left hk
        omega

/-- Witness: the C1 theorem applied to the reachable trie holding the single
key `[true]` and the lookup key `[true, false]`. -/
theorem c1_find_node_longest_spec_witness :
    (∀ e, Trie.find_node (applyOps (root0 : TrieNode Bool Nat) [Op.ins [true] 5]) [true, false]
        LONGEST_PREFIX_MODE = .error e →
      e = PyErr.keyError ∧ ∀ k, k ≤ ([true, false] : List Bool).length →
        terminalAtB (applyOps (root0 : TrieNode Bool Nat) [Op.ins [true] 5])
          (([true, false] : List Bool).take k) = false)
    ∧ (∀ p r, Trie.find_node (applyOps (root0 : TrieNode Bool Nat) [Op.ins [true] 5])
        [true, false] LONGEST_PREFIX_MODE = .ok (p, r) →
      ∃ n k, r = Sum.inl n ∧ k ≤ ([true, false] : List Bool).length ∧
        p = ([true, false] : List Bool).take k ∧
        nodeAt (applyOps (root0 : TrieNode Bool Nat) [Op.ins [true] 5]) p = some n ∧
        n.terminal = true ∧
        ∀ j, j ≤ ([true, false] : List Bool).length →
          terminalAtB (applyOps (root0 : TrieNode Bool Nat) [Op.ins [true] 5])
            (([true, false] : List Bool).take j) = true → j ≤ k) :=
  c1_find_node_longest_spec (applyOps root0 [Op.ins [true] 5])
    ⟨[Op.ins [true] 5], rfl⟩ [true, false]

/-- C3: evaluation showing that `find` ignores its `mode` argument.  With only
the key `[true]` stored, `find` called in EXACT_ONLY mode on `[true, false]`
succeeds with the longest-prefix match `([true], [5])` instead of failing
with KeyNotFound as the claim requires. -/
theorem c3_find_ignores_mode_eval :
    Trie.find (Trie.insert (root0 : TrieNode Bool Nat) [true] 5) [true, false] EXACT_ONLY_MODE
      = .ok ([true], [5]) := rfl

/-- C4: evaluation showing the SHORTEST_PREFIX terminal-root special case.
With the empty key stored at the root, `find_node` in SHORTEST_PREFIX mode
returns the pair `('', root.data)` — the value list `[9]`, not the root node
as the claim (and the function's own docstring) state. -/
theorem c4_shortest_root_returns_data_eval :
    Trie.find_node (Trie.insert (root0 : TrieNode Bool Nat) [] 9) [true] SHORTEST_PREFIX_MODE
      = .ok ([], Sum.inr [9]) := rfl

/-- C5: `remove` raises KeyNotFound iff no terminal node sits exactly at the
key, raises ValueNotFound iff that terminal node exists but lacks the value,
and on success erases exactly the first occurrence of the value there,
clearing the terminal flag exactly when the list becomes empty. -/
theorem c5_remove_error_spec (t : TrieNode σ α) (s : List σ) (v : α) :
    ((Trie.remove t s v).2 = some PyErr.keyError ↔ terminalAtB t s = false)
    ∧ ((Trie.remove t s v).2 = some PyErr.valueError ↔
        (terminalAtB t s = true ∧ ∀ n, nodeAt t s = some n → v ∉ n.data))
    ∧ ((Trie.remove t s v).2 = none →
        ∃ n n', nodeAt t s = some n ∧ n.terminal = true ∧ v ∈ n.data ∧
          nodeAt ((Trie.remove t s v).1) s = some n' ∧ n'.data = n.data.erase v ∧
          n'.terminal = (if n.data.erase v = [] then false else true)) := by
  by_cases hterm : terminalAtB t s = true
  · have hex : ∃ n, nodeAt t s = some n ∧ n.terminal = true := by
      rw [terminalAtB] at hterm
      cases hx : nodeAt t s with
      | none =>
        rw [hx] at hterm
        simp at hterm
      | some n =>
        rw [hx] at hterm
        simp at hterm
        exact ⟨n, rfl, hterm⟩
    obtain ⟨n, hn, ht⟩ := hex
    by_cases hv : v ∈ n.data
    · rw [remove_eq_of_found t s v n hn ht hv]
      refine ⟨by simp [hterm], ?_, ?_⟩
      · constructor
        · intro h
          simp at h
        · rintro ⟨_, h2⟩
          exact absurd hv (h2 n hn)
      · intro _
        refine ⟨n, removeUpd v n, hn, ht, hv, ?_, rfl, ?_⟩
        · show nodeAt (updateAt t s (removeUpd v)) s = some (removeUpd v n)
          rw [nodeAt_updateAt_self (removeUpd v) s t, hn]
          rfl
        · show (if (n.data.erase v).isEmpty then false else n.terminal)
            = (if n.data.erase v = [] then false else true)
          rw [ht]
          cases hE : n.data.erase v with
          | nil => simp
          | cons a l => simp
    · rw [remove_valueError t s v n hn ht hv]
      refine ⟨by simp [hterm], ?_, ?_⟩
      · simp only [Option.some.injEq]
        constructor
        · intro _
          refine ⟨hterm, fun n' hn2 => ?_⟩
          rw [hn] at hn2
          injection hn2 with hh
          rw [← hh]
          exact hv
        · intro _
          trivial
      · intro h
        simp at h
  · have hfalse : terminalAtB t s = false := by
      cases hx : terminalAtB t s
      · rfl
      · exact absurd hx hterm
    rw [remove_keyError t s v hfalse]
    refine ⟨by simp [hfalse], ?_, ?_⟩
    · constructor
      · intro h
        simp at h
      · rintro ⟨h1, _⟩
        rw [hfalse] at h1
        cases h1
    · intro h
      simp at h

/-- C6: `insert` is total, and at the inserted key it leaves a terminal node
whose value list is the previous list (empty when the node was not terminal
or did not exist) with the new value appended; inserting twice at the same
key appends both values in order, so duplicates accumulate. -/
theorem c6_insert_spec (t : TrieNode σ α) (s : List σ) (v1 v2 : α) :
    (∃ n', nodeAt (Trie.insert t s v1) s = some n' ∧ n'.terminal = true ∧
      n'.data = (match nodeAt t s with
        | some n => if n.terminal then n.data else []
        | none => []) ++ [v1])
    ∧ (∃ n'', nodeAt (Trie.insert (Trie.insert t s v1) s v2) s = some n'' ∧
      n''.terminal = true ∧
      n''.data = (match nodeAt t s with
        | some n => if n.terminal then n.data else []
        | none => []) ++ [v1, v2]) := by
  obtain ⟨n', h1, h2, h3, _⟩ := insert_nodeAt s t v1
  refine ⟨⟨n', h1, h2, h3⟩, ?_⟩
  obtain ⟨n'', g1, g2, g3, _⟩ := insert_nodeAt s (Trie.insert t s v1) v2
  refine ⟨n'', g1, g2, ?_⟩
  rw [g3, h1]
  simp [h2, h3]

theorem lookup_eq_of_parse_find {β : Type} [DecidableEq β] (t : TrieNode Bool β)
    (ip : String) (ru : Bool) (s pfx : List Bool) (d : List β)
    (hs : ip_to_binary_string ip = .ok s)
    (hf : Trie.find t s LONGEST_PREFIX_MODE = .ok (pfx, d)) :
    CidrClassifier.lookup t ip ru =
      .ok ⟨inet_ntoa (bitsToNat (pfx ++ List.replicate (32 - pfx.length) false)), pfx.length,
        NextHop.hops d⟩ := by
  simp only [CidrClassifier.lookup, hs, hf]

/-- C2: when the classifier stores `hop` as the only value at the key derived
from the base address and mask, and no longer stored prefix covers the queried
address, `lookup` of any address agreeing with the base on the top `mask` bits
returns the zero-padded matched prefix in dotted decimal, the mask derived
from the prefix length, and exactly `[hop]`. -/
theorem c2_classifier_lookup_single {β : Type} [DecidableEq β] (t : TrieNode Bool β)
    (hr : Reachable t) (ip : String) (mask : Nat) (hop : β) (bbits ibits : List Bool)
    (hi : ip_to_binary_string ip = .ok ibits)
    (hm : mask ≤ 32)
    (hcover : ibits.take mask = bbits.take mask)
    (hterm : (nodeAt t (bbits.take mask)).map (fun n => (n.terminal, n.data))
      = some (true, [hop]))
    (hnolonger : ∀ j, j ≤ 32 → mask < j → terminalAtB t (ibits.take j) = false) :
    CidrClassifier.lookup t ip false =
      .ok ⟨inet_ntoa (bitsToNat (bbits.take mask ++ List.replicate (32 - mask) false)), mask,
        NextHop.hops [hop]⟩ := by
  have hlen : ibits.length = 32 := ip_to_binary_string_length ip ibits hi
  have hco := reachable_coherent t hr
  obtain ⟨n0, hn0, ht0, hd0⟩ : ∃ n0, nodeAt t (bbits.take mask) = some n0 ∧
      n0.terminal = true ∧ n0.data = [hop] := by
    cases hx : nodeAt t (bbits.take mask) with
    | none =>
      rw [hx] at hterm
      exact absurd hterm (by simp)
    | some n0 =>
      rw [hx] at hterm
      simp at hterm
      exact ⟨n0, rfl, hterm.1, hterm.2⟩
  have hterm' : terminalAtB t (ibits.take mask) = true := by
    rw [terminalAtB, hcover, hn0]
    simpa using ht0
  cases hbm : bestMatch t ibits with
  | none =>
    have hcontra := bestMatch_none ibits t hbm mask (by rw [hlen]; exact hm)
    rw [hterm'] at hcontra
    cases hcontra
  | some pm =>
    obtain ⟨p, m⟩ := pm
    obtain ⟨k, hk, hp, hnm, hmterm⟩ := bestMatch_some ibits t p m hbm
    have hklen : p.length = k := by
      rw [hp, List.length_take]
      exact Nat.min_eq_left hk
    have hge : mask ≤ p.length :=
      bestMatch_max ibits t p m hbm mask (by rw [hlen]; exact hm) hterm'
    have hle : k ≤ mask := by
      by_contra hlt
      push_neg at hlt
      have hfalse := hnolonger k (by rw [hlen] at hk; exact hk) hlt
      rw [terminalAtB, ← hp, hnm] at hfalse
      simp [hmterm] at hfalse
    have hkm : k = mask := by omega
    have hpm : p = ibits.take mask := by rw [hp, hkm]
    have hmn0 : m = n0 := by
      rw [hpm, hcover, hn0] at hnm
      injection hnm with hh
      exact hh.symm
    have hfind : Trie.find t ibits LONGEST_PREFIX_MODE = .ok (ibits.take mask, [hop]) := by
      rw [find_longest_eq_bestMatch t hco ibits LONGEST_PREFIX_MODE, hbm]
      simp [hpm, hmn0, hd0]
    have hplen : (ibits.take mask).length = mask := by
      rw [List.length_take]
      exact Nat.min_eq_left (by rw [hlen]; exact hm)
    rw [lookup_eq_of_parse_find t ip false ibits (ibits.take mask) [hop] hi hfind,
      hplen, hcover]

/-- Witness: the C2 theorem at the classifier state holding 192.168.0.0/24
with next hop `7`, looked up at 192.168.0.1. -/
theorem c2_classifier_lookup_single_witness :
    CidrClassifier.lookup
        (applyOps (root0 : TrieNode Bool Nat) [Op.ins ((natToBits 32 3232235520).take 24) 7])
        "192.168.0.1" false =
      .ok ⟨inet_ntoa (bitsToNat ((natToBits 32 3232235520).take 24 ++
        List.replicate (32 - 24) false)), 24, NextHop.hops [7]⟩ :=
  c2_classifier_lookup_single
    (applyOps root0 [Op.ins ((natToBits 32 3232235520).take 24) 7])
    ⟨[Op.ins ((natToBits 32 3232235520).take 24) 7], rfl⟩
    "192.168.0.1" 24 7 (natToBits 32 3232235520) (natToBits 32 3232235521)
    rfl (by decide) rfl rfl (by decide)

/-- C7: `lookup` with `return_unroutable` yields the sentinel
`("0.0.0.0", 0, 0)` exactly when the longest-prefix `find` raises
KeyNotFound, and a parse failure on a malformed address always propagates,
whatever the flag. -/
theorem c7_lookup_unroutable_spec {β : Type} [DecidableEq β] (t : TrieNode Bool β)
    (ip : String) :
    (∀ e, ip_to_binary_string ip = .error e → ∀ ru, CidrClassifier.lookup t ip ru = .error e)
    ∧ (∀ s, ip_to_binary_string ip = .ok s →
      (CidrClassifier.lookup t ip true = .ok ⟨"0.0.0.0", 0, NextHop.zero⟩ ↔
        Trie.find t s LONGEST_PREFIX_MODE = .error PyErr.keyError)) := by
  constructor
  · intro e he ru
    simp only [CidrClassifier.lookup, he]
  · intro s hs
    cases hf : Trie.find t s LONGEST_PREFIX_MODE with
    | ok pd =>
      obtain ⟨p, d⟩ := pd
      constructor
      · intro h
        rw [lookup_eq_of_parse_find t ip true s p d hs hf] at h
        simp at h
      · intro h
        exact absurd h (by simp)
    | error e =>
      have he : e = PyErr.keyError := by
        rw [Trie.find] at hf
        cases hfn : Trie.find_node t s LONGEST_PREFIX_MODE with
        | error e' =>
          rw [hfn] at hf
          simp at hf
          exact hf ▸ find_node_longest_error_eq t s e' hfn
        | ok pr =>
          obtain ⟨p, r⟩ := pr
          obtain ⟨n, rfl⟩ := find_node_longest_ok_inl t s p r hfn
          rw [hfn] at hf
          simp at hf
      subst he
      simp only [CidrClassifier.lookup, hs, hf]
      simp

/-- C8: a successful `remove` deletes no node, changes no child mapping and
no node symbol; every node other than the one at the removed key keeps its
terminal flag and value list unchanged. -/
theorem c8_remove_frame (t : TrieNode σ α) (s : List σ) (v : α)
    (h : (Trie.remove t s v).2 = none) :
    (∀ p, (nodeAt ((Trie.remove t s v).1) p).isSome = (nodeAt t p).isSome)
    ∧ (∀ p, (nodeAt ((Trie.remove t s v).1) p).map (fun n => n.children.map Prod.fst)
        = (nodeAt t p).map (fun n => n.children.map Prod.fst))
    ∧ (∀ p, (nodeAt ((Trie.remove t s v).1) p).map TrieNode.value
        = (nodeAt t p).map TrieNode.value)
    ∧ (∀ p, p ≠ s →
        (nodeAt ((Trie.remove t s v).1) p).map (fun n => (n.terminal, n.data))
          = (nodeAt t p).map (fun n => (n.terminal, n.data))) := by
  have hupd : (Trie.remove t s v).1 = updateAt t s (removeUpd v) := by
    by_cases hterm : terminalAtB t s = true
    · obtain ⟨n, hn, ht⟩ := terminalAtB_some t s hterm
      by_cases hv : v ∈ n.data
      · rw [remove_eq_of_found t s v n hn ht hv]
      · rw [remove_valueError t s v n hn ht hv] at h
        simp at h
    · have hfalse : terminalAtB t s = false := by
        cases hx : terminalAtB t s
        · rfl
        · exact absurd hx hterm
      rw [remove_keyError t s v hfalse] at h
      simp at h
  rw [hupd]
  exact ⟨fun p => (nodeAt_updateAt_removeUpd v s t p).1,
    fun p => (nodeAt_updateAt_removeUpd v s t p).2.1,
    fun p => (nodeAt_updateAt_removeUpd v s t p).2.2.1,
    fun p hp => (nodeAt_updateAt_removeUpd v s t p).2.2.2 hp⟩

/-- Witness: the C8 theorem at the successful removal of the only value at
key `[true]`. -/
theorem c8_remove_frame_witness :
    (∀ p, (nodeAt ((Trie.remove (Trie.insert (root0 : TrieNode Bool Nat) [true] 5)
        [true] 5).1) p).isSome
      = (nodeAt (Trie.insert (root0 : TrieNode Bool Nat) [true] 5) p).isSome)
    ∧ (∀ p, (nodeAt ((Trie.remove (Trie.insert (root0 : TrieNode Bool Nat) [true] 5)
        [true] 5).1) p).map (fun n => n.children.map Prod.fst)
      = (nodeAt (Trie.insert (root0 : TrieNode Bool Nat) [true] 5) p).map
          (fun n => n.children.map Prod.fst))
    ∧ (∀ p, (nodeAt ((Trie.remove (Trie.insert (root0 : TrieNode Bool Nat) [true] 5)
        [true] 5).1) p).map TrieNode.value
      = (nodeAt (Trie.insert (root0 : TrieNode Bool Nat) [true] 5) p).map TrieNode.value)
    ∧ (∀ p, p ≠ [true] →
        (nodeAt ((Trie.remove (Trie.insert (root0 : TrieNode Bool Nat) [true] 5)
          [true] 5).1) p).map (fun n => (n.terminal, n.data))
          = (nodeAt (Trie.insert (root0 : TrieNode Bool Nat) [true] 5) p).map
              (fun n => (n.terminal, n.data))) :=
  c8_remove_frame (Trie.insert root0 [true] 5) [true] 5 rfl

/-- C9: in every trie reachable from the empty trie by inserts and removes,
every node's value list is non-empty exactly when its terminal flag is set. -/
theorem c9_reachable_terminal_data_inv (t : TrieNode σ α) (h : Reachable t) :
    allNodesB invB t = true := by
  obtain ⟨l, rfl⟩ := h
  have hstep : ∀ (u : TrieNode σ α) (o : Op σ α),
      allNodesB invB u = true → allNodesB invB (applyOp u o) = true := by
    intro u o hu
    cases o with
    | ins s v => exact insert_inv s u v hu
    | rem s v =>
      rw [applyOp]
      rcases remove_fst_cases u s v with hcase | hcase
      · rw [hcase]
        exact hu
      · rw [hcase]
        exact updateAt_inv v s u hu
  exact applyOps_preserve hstep l root0 rfl

/-- Witness: the C9 theorem at a concrete history with two inserts and a
remove that demotes a node. -/
theorem c9_reachable_terminal_data_inv_witness :
    allNodesB invB (applyOps (root0 : TrieNode Bool Nat)
      [Op.ins [true] 5, Op.ins [true, false] 7, Op.rem [true] 5]) = true :=
  c9_reachable_terminal_data_inv
    (applyOps root0 [Op.ins [true] 5, Op.ins [true, false] 7, Op.rem [true] 5])
    ⟨[Op.ins [true] 5, Op.ins [true, false] 7, Op.rem [true] 5], rfl⟩

/-- C10: a `remove` that raises (either error) leaves the trie state it hands
on identical to the one it received, so every subsequent lookup answers
exactly as before. -/
theorem c10_remove_failure_frame (t : TrieNode σ α) (s : List σ) (v : α) (e : PyErr)
    (h : (Trie.remove t s v).2 = some e) :
    (Trie.remove t s v).1 = t ∧
      ∀ (q : List σ) (mode : Nat),
        Trie.find_node ((Trie.remove t s v).1) q mode = Trie.find_node t q mode := by
  have hfst : (Trie.remove t s v).1 = t := by
    by_cases hterm : terminalAtB t s = true
    · obtain ⟨n, hn, ht⟩ := terminalAtB_some t s hterm
      by_cases hv : v ∈ n.data
      · rw [remove_eq_of_found t s v n hn ht hv] at h
        simp at h
      · rw [remove_valueError t s v n hn ht hv]
    · have hfalse : terminalAtB t s = false := by
        cases hx : terminalAtB t s
        · rfl
        · exact absurd hx hterm
      rw [remove_keyError t s v hfalse]
  exact ⟨hfst, fun q mode => by rw [hfst]⟩

/-- Witness: the C10 theorem at a remove of a missing key. -/
theorem c10_remove_failure_frame_witness :
    (Trie.remove (Trie.insert (root0 : TrieNode Bool Nat) [true] 5) [false] 5).1
        = Trie.insert (root0 : TrieNode Bool Nat) [true] 5 ∧
      ∀ (q : List Bool) (mode : Nat),
        Trie.find_node ((Trie.remove (Trie.insert (root0 : TrieNode Bool Nat) [true] 5)
          [false] 5).1) q mode
          = Trie.find_node (Trie.insert (root0 : TrieNode Bool Nat) [true] 5) q mode :=
  c10_remove_failure_frame (Trie.insert root0 [true] 5) [false] 5 PyErr.keyError rfl

end Cidrtrie
